import Mathlib

/-!
Verification development for the xpathfinder core: a shallow embedding of
`xml_utils.py` (parse_xml, strip_namespaces, pretty_print,
summarize_xml_structure), the namespace-rename validator of `app.py`, and the
History component described in the design document (its module is not part of
the sources, so it is modelled from the specification).

Python dicts are modelled as ordered association lists (insertion order, keys
unique), Python sets as duplicate-free lists with membership insertion, raised
exceptions as `Option`/`Except` error values, and lxml trees as a mutual
inductive of element / comment / processing-instruction nodes.
-/

/-- Right-brace character, written via its code point to keep string literals
plain. lxml uses Clark notation `\x7buri\x7dlocal` for qualified names. -/
def rbrace : Char := Char.ofNat 125

/-- Characters strictly after the first right brace of a list, if any.
Models Python `s.split(chr(125), 1)[1]` guarded by a containment test. -/
def afterBrace : List Char → Option (List Char)
  | [] => none
  | c :: cs => if c = rbrace then some cs else afterBrace cs

/-- Local part of a possibly Clark-qualified name: everything after the first
right brace when one occurs, the whole string otherwise.  This is the
`key.split(...)[1]` idiom of `strip_namespaces` (xml_utils.py lines 59-62 and
74-77) and agrees with `etree.QName(...).localname` on lxml tag strings. -/
def localPart (s : String) : String :=
  match afterBrace s.data with
  | some rest => String.mk rest
  | none => s

/-- Bool test that a string contains no right brace. -/
def braceFree (s : String) : Bool := s.data.all (fun c => c != rbrace)

/-- List version of Python `str.startswith`: first argument is the pattern. -/
def listStarts : List Char → List Char → Bool
  | [], _ => true
  | _ :: _, [] => false
  | p :: ps, s :: ss => p == s && listStarts ps ss

/-- Python `s.startswith(pre)`. -/
def strStarts (s pre : String) : Bool := listStarts pre.data s.data

/-- Lexicographic comparison of char lists by code point, as Python compares
strings. -/
def charListLe : List Char → List Char → Bool
  | [], _ => true
  | _ :: _, [] => false
  | a :: as, b :: bs =>
    if a.toNat < b.toNat then true
    else if b.toNat < a.toNat then false
    else charListLe as bs

/-- Python string order. -/
def strLe (a b : String) : Bool := charListLe a.data b.data

/-- Insertion step of the sort used to model Python `sorted`. -/
def insertSorted (x : String) : List String → List String
  | [] => [x]
  | y :: ys => if strLe x y then x :: y :: ys else y :: insertSorted x ys

/-- Model of Python `sorted` on strings (insertion sort; order is total so the
result on duplicate-free input matches CPython). -/
def sortStrings : List String → List String
  | [] => []
  | x :: xs => insertSorted x (sortStrings xs)

/-- Model of Python `sep.join`. -/
def joinWith (sep : String) : List String → String
  | [] => ""
  | [s] => s
  | s :: rest => s ++ sep ++ joinWith sep rest

/-- Python `"  " * n`. -/
def indentStr : Nat → String
  | 0 => ""
  | n + 1 => "  " ++ indentStr n

/-- Concatenation of the images of a list, used for loops that append the
output of recursive calls. -/
def concatMap (f : α → List β) : List α → List β
  | [] => []
  | x :: xs => f x ++ concatMap f xs

/-- Membership-checked append: Python `set.add` on a set represented as a
duplicate-free list in insertion order. -/
def insertNew (l : List String) (a : String) : List String :=
  if a ∈ l then l else l ++ [a]

/-- Python `set.update(iterable)`. -/
def insertAll (l : List String) (as : List String) : List String :=
  as.foldl insertNew l

mutual
/-- lxml `_Element`-level node: a proper element (tag, attribute pairs in
document order, text before first child, tail after the node, children), a
comment (tag is the `etree.Comment` function in lxml, not a string), or a
processing instruction (tag is the `etree.PI` function). -/
inductive XmlNode where
  | element (tag : String) (attribs : List (String × String)) (text : Option String)
      (tail : Option String) (children : XmlForest)
  | comment (text : Option String) (tail : Option String)
  | procInst (target : String) (text : Option String) (tail : Option String)
deriving DecidableEq
/-- Ordered child sequence of a node. -/
inductive XmlForest where
  | nil
  | cons (head : XmlNode) (tail : XmlForest)
deriving DecidableEq
end

/-- lxml `_ElementTree`: the parsed root plus the root's namespace
declarations (`getroot().nsmap`), a dict from prefix to URI whose `None` key
is the default namespace.  Keys are unique in a dict. -/
structure XmlDoc where
  root : XmlNode
  rootNsDecls : List (Option String × String)
deriving DecidableEq

/-- Attribute list of a node (empty for non-elements). -/
def attribsOfNode : XmlNode → List (String × String)
  | .element _ a _ _ _ => a
  | _ => []

/-- Tag of a node; comments and processing instructions have no string tag in
lxml, the placeholder is only used where the source guarantees an element. -/
def nodeTag : XmlNode → String
  | .element t _ _ _ _ => t
  | _ => ""

/-- Python exception kinds relevant to this core. `parseFail` stands for the
spec's ParseError family raised by the external parser. -/
inductive PyErr where
  | typeError
  | valueError
  | attributeError
  | parseFail
  | otherErr
deriving DecidableEq

deriving instance DecidableEq for Except

/-- Attribute keys skipped by `strip_namespaces` (xml_utils.py line 72):
`key.startswith(...)` for the literal token `xmlns`, or equality with it (the
equality test is redundant but kept from the source). -/
def isDroppedKey (k : String) : Bool := strStarts k "xmlns" || k == "xmlns"

/-- Python truthiness guard used for text and tail (`if source_elem.text:`):
`None` and the empty string are falsy, so the new node keeps `None` there. -/
def truthyOpt : Option String → Option String
  | none => none
  | some s => if s = "" then none else some s

/-- lxml `Element.set(key, value)`: replace in place when the key exists,
append otherwise (dict semantics, insertion ordered). -/
def attrSetD : List (String × String) → String → String → List (String × String)
  | [], k, v => [(k, v)]
  | (k0, v0) :: rest, k, v =>
    if k0 = k then (k0, v) :: rest else (k0, v0) :: attrSetD rest k v

/-- One iteration of the attribute-copy loop of `strip_namespaces`
(xml_utils.py lines 71-78). -/
def stripStep (acc : List (String × String)) (kv : String × String) :
    List (String × String) :=
  if isDroppedKey kv.1 then acc else attrSetD acc (localPart kv.1) kv.2

/-- Attribute processing of `strip_namespaces`: drop keys starting with
`xmlns`, reduce the rest to their local part, `set` them on the new element. -/
def stripAttribs (attribs : List (String × String)) : List (String × String) :=
  attribs.foldl stripStep []

/-- Spec-side transformation of a single attribute pair: kept attributes get
their key localized, dropped ones vanish. Used to state order preservation. -/
def keptAttr (kv : String × String) : Option (String × String) :=
  if isDroppedKey kv.1 then none else some (localPart kv.1, kv.2)

/-- Namespace-declaration attribute in the sense of the specification: the
reserved name itself, or a name in the reserved declaration namespace
(Clark notation).  This follows the spec wording, for comparison against the
source's `isDroppedKey` test. -/
def isNsDeclAttr (k : String) : Bool :=
  k == "xmlns" || strStarts k "\x7bhttp://www.w3.org/2000/xmlns/\x7d"

mutual
/-- `strip_namespaces` (xml_utils.py lines 55-84).  Comments are rebuilt from
their text only; a processing instruction reaches the `chr(125) in tag`
containment test with a non-string tag, raising TypeError (`none` here);
elements are rebuilt with localized tag, truthiness-guarded text and tail,
the processed attribute list and recursively stripped children. -/
def stripNamespaces : XmlNode → Option XmlNode
  | .comment t _ => some (.comment t none)
  | .procInst _ _ _ => none
  | .element tag attribs tx tl children =>
    match stripForest children with
    | none => none
    | some cs =>
      some (.element (localPart tag) (stripAttribs attribs) (truthyOpt tx) (truthyOpt tl) cs)
/-- Child loop of `strip_namespaces`; any child failure propagates. -/
def stripForest : XmlForest → Option XmlForest
  | .nil => some .nil
  | .cons c cs =>
    match stripNamespaces c, stripForest cs with
    | some cN, some csN => some (.cons cN csN)
    | _, _ => none
end

/-- Dict lookup on the root nsmap (`nsmap.get(key)`), keys are optional
strings because the default namespace is stored under `None`. -/
def nsGet : List (Option String × String) → Option String → Option String
  | [], _ => none
  | (k, v) :: rest, q => if k = q then some v else nsGet rest q

/-- String keys present in the root nsmap; membership of a string in the dict
(`ns in nsmap`) is membership here, since the only non-string key is `None`. -/
def strKeys (m : List (Option String × String)) : List String :=
  m.filterMap (fun kv => kv.1)

/-- Loop `while ns in nsmap: ns += ...` of parse_xml (xml_utils.py lines
30-32), with fuel; one plus the number of string keys always suffices, which
the accompanying theorems establish. -/
def synthAux (keys : List String) : Nat → String → String
  | 0, cur => cur
  | fuel + 1, cur => if cur ∈ keys then synthAux keys fuel (cur ++ "_") else cur

/-- Synthesized prefix for the default namespace: start from the token `ns`
and append underscores until the token is not a declared prefix. -/
def synthNs (m : List (Option String × String)) : String :=
  synthAux (strKeys m) ((strKeys m).length + 1) "ns"

/-- Rebuild step of the dict comprehension on xml_utils.py line 33: the
`None` key becomes the synthesized token, every other entry is unchanged. -/
def rekeyDefault (ns : String) (kv : Option String × String) : String × String :=
  match kv.1 with
  | none => (ns, kv.2)
  | some k => (k, kv.2)

/-- Namespace-normalization core of parse_xml (xml_utils.py lines 26-35):
read the default-namespace URI, return `(None, None)` when it is absent or
falsy, otherwise synthesize a prefix and re-key the declarations. -/
def normalizeNsmap (m : List (Option String × String)) :
    Option (List (String × String)) × Option String :=
  match nsGet m none with
  | some u =>
    if u = "" then (none, none)
    else (some (m.map (rekeyDefault (synthNs m))), some (synthNs m))
  | none => (none, none)

/-- Lookup in the re-keyed (string-keyed) namespace map. -/
def nsGetS : List (String × String) → String → Option String
  | [], _ => none
  | (k, v) :: rest, q => if k = q then some v else nsGetS rest q

/-- `parse_xml` (xml_utils.py lines 12-37) over an abstract parse capability:
the lxml parser is an external collaborator, modelled as a function from path
to either a ParseError-family failure or a parsed document; exceptions
propagate unhandled, and the returned document is a second parse of the same
path. -/
def parse_xml (parseFn : String → Except PyErr XmlDoc) (path : String) :
    Except PyErr (XmlDoc × Option (List (String × String)) × Option String) := do
  let doc ← parseFn path
  let pair := normalizeNsmap doc.rootNsDecls
  let doc2 ← parseFn path
  return (doc2, pair.1, pair.2)

/-- Per-tag record of `summarize_xml_structure`: occurrence count, set of
attribute keys seen (list without duplicates, insertion order), and child-tag
occurrence counts (dict in insertion order). -/
structure TagInfo where
  count : Nat
  attributes : List String
  children : List (String × Nat)
deriving DecidableEq

/-- Value a defaultdict materializes for a missing tag. -/
def defaultTagInfo : TagInfo := ⟨0, [], []⟩

/-- The `tag_tree` defaultdict, ordered by first access. -/
abbrev TagTree := List (String × TagInfo)

/-- Read access `tag_tree[tag]`, with the defaultdict default for misses. -/
def ttFind : TagTree → String → TagInfo
  | [], _ => defaultTagInfo
  | (k, i) :: rest, t => if k = t then i else ttFind rest t

/-- Write access `tag_tree[tag]`: mutate in place when present, append the
mutated default otherwise (defaultdict insertion order). -/
def ttUpdate : TagTree → String → (TagInfo → TagInfo) → TagTree
  | [], t, f => [(t, f defaultTagInfo)]
  | (k, i) :: rest, t, f =>
    if k = t then (k, f i) :: rest else (k, i) :: ttUpdate rest t f

/-- `children[tag] += 1` on a defaultdict(int). -/
def bumpChild : List (String × Nat) → String → List (String × Nat)
  | [], t => [(t, 1)]
  | (k, n) :: rest, t => if k = t then (k, n + 1) :: rest else (k, n) :: bumpChild rest t

/-- Parent bookkeeping of `traverse` (xml_utils.py lines 107-108): guarded by
Python truthiness of `parent_tag`, so `None` and the empty string skip it. -/
def bumpParent (tt : TagTree) (parentTag : Option String) (t : String) : TagTree :=
  match parentTag with
  | some p =>
    if p = "" then tt
    else ttUpdate tt p (fun i => { i with children := bumpChild i.children t })
  | none => tt

mutual
/-- `traverse` of `summarize_xml_structure` (xml_utils.py lines 101-110):
non-element nodes are skipped entirely; an element bumps its local tag's
count, unions its raw attribute keys into the tag's attribute set, registers
itself with its parent tag, then recurses over its children with itself as
parent. -/
def traverseNode : XmlNode → Option String → TagTree → TagTree
  | .comment _ _, _, tt => tt
  | .procInst _ _ _, _, tt => tt
  | .element tag attribs _ _ children, parentTag, tt =>
    traverseForest children (localPart tag)
      (bumpParent
        (ttUpdate
          (ttUpdate tt (localPart tag) (fun i => { i with count := i.count + 1 }))
          (localPart tag)
          (fun i => { i with attributes := insertAll i.attributes (attribs.map Prod.fst) }))
        parentTag (localPart tag))
/-- Child loop of `traverse`. -/
def traverseForest : XmlForest → String → TagTree → TagTree
  | .nil, _, tt => tt
  | .cons c cs, t, tt => traverseForest cs t (traverseNode c (some t) tt)
end

/-- The tag tree built by one summarization call. -/
def tagTreeOf (doc : XmlDoc) : TagTree := traverseNode doc.root none []

mutual
/-- Whether some element of the tree (the node itself or a descendant) has
local tag name `t` and carries an attribute whose raw key is `a`: the
reference predicate for per-tag attribute aggregation. -/
def hasTagAttr : XmlNode → String → String → Bool
  | .element tag attribs _ _ children, t, a =>
    (decide (localPart tag = t) && decide (a ∈ attribs.map Prod.fst)) ||
      forestHasTagAttr children t a
  | .comment _ _, _, _ => false
  | .procInst _ _ _, _, _ => false
/-- Forest version of `hasTagAttr`. -/
def forestHasTagAttr : XmlForest → String → String → Bool
  | .nil, _, _ => false
  | .cons c cs, t, a => hasTagAttr c t a || forestHasTagAttr cs t a
end

/-- One rendered line of `format_summary` (xml_utils.py lines 120-122): the
indented tag, plus its sorted attribute set when non-empty. -/
def summaryLine (tag : String) (indent : Nat) (attrs : List String) : String :=
  if attrs.isEmpty then indentStr indent ++ "- <" ++ tag ++ ">"
  else
    indentStr indent ++ "- <" ++ tag ++ ">" ++ " [attributes: " ++
      joinWith ", " (sortStrings attrs) ++ "]"

/-- The marker line emitted under a tag that reappears on its own path. -/
def recMarker (indent : Nat) : String := indentStr (indent + 1) ++ "(recursive element)"

/-- `format_summary` (xml_utils.py lines 114-131) with explicit fuel: emit the
tag's line; when the tag is already on the current rendering path, emit the
recursion marker and stop instead of descending; otherwise recurse into the
tag's children in sorted order with the tag added to the path.  The walk
terminates within one step per distinct tag name, so any fuel beyond the
number of tags in the tree gives the same output (proved below). -/
def formatSummaryF (tt : TagTree) : Nat → String → Nat → List String → List String
  | 0, _, _, _ => []
  | fuel + 1, tag, indent, seen =>
    if tag ∈ seen then
      [summaryLine tag indent (ttFind tt tag).attributes, recMarker indent]
    else
      summaryLine tag indent (ttFind tt tag).attributes ::
        concatMap (fun c => formatSummaryF tt fuel c (indent + 1) (tag :: seen))
          (sortStrings ((ttFind tt tag).children.map Prod.fst))

/-- `format_summary` with sufficient fuel for the given tag tree. -/
def formatSummary (tt : TagTree) (tag : String) (indent : Nat) (seen : List String) :
    List String :=
  formatSummaryF tt (tt.length + 1) tag indent seen

/-- `summarize_xml_structure` (xml_utils.py lines 95-138): count pass over the
node tree, then a rendering walk over the tag-name graph from the root tag's
children (the root line itself is emitted bare, without attribute list), each
top-level call starting with a fresh empty path. -/
def summarize_xml_structure (doc : XmlDoc) : String :=
  joinWith "\n"
    (("<" ++ localPart (nodeTag doc.root) ++ ">") ::
      concatMap (fun c => formatSummary (tagTreeOf doc) c 1 [])
        (sortStrings
          ((ttFind (tagTreeOf doc) (localPart (nodeTag doc.root))).children.map Prod.fst)))

/-- Modelled from the spec: the History component (design document section
4.5).  Its module (`history.py`, imported by app.py as HistoryManager) is not
among the sources, so the snapshot sequence and cursor are taken from the
specification text verbatim: a sequence of string snapshots plus a cursor,
cursor in `[0, length)` when non-empty. -/
structure HistoryManager where
  snapshots : List String
  cursor : Nat
deriving DecidableEq

/-- Modelled from the spec: the empty history. -/
def historyEmpty : HistoryManager := ⟨[], 0⟩

/-- Modelled from the spec: `add(snapshot)` discards everything after the
cursor when the sequence is non-empty and the cursor is not at the last
index, then appends the snapshot and moves the cursor to its index. -/
def hAdd (h : HistoryManager) (s : String) : HistoryManager :=
  if h.snapshots ≠ [] ∧ h.cursor ≠ h.snapshots.length - 1 then
    ⟨h.snapshots.take (h.cursor + 1) ++ [s], (h.snapshots.take (h.cursor + 1)).length⟩
  else ⟨h.snapshots ++ [s], h.snapshots.length⟩

/-- Modelled from the spec: `current()` is the snapshot at the cursor, absent
when empty. -/
def hCurrent (h : HistoryManager) : Option String := h.snapshots.get? h.cursor

/-- Modelled from the spec: `undo()` returns absent and leaves the state
unchanged at index zero or when empty; otherwise it decrements the cursor and
returns the snapshot now at the cursor. -/
def hUndo (h : HistoryManager) : Option String × HistoryManager :=
  if h.cursor = 0 ∨ h.snapshots = [] then (none, h)
  else (h.snapshots.get? (h.cursor - 1), ⟨h.snapshots, h.cursor - 1⟩)

/-- Modelled from the spec: `redo()` returns absent and leaves the state
unchanged at the last index or when empty; otherwise it increments the cursor
and returns the snapshot now at the cursor. -/
def hRedo (h : HistoryManager) : Option String × HistoryManager :=
  if h.snapshots = [] ∨ h.cursor = h.snapshots.length - 1 then (none, h)
  else (h.snapshots.get? (h.cursor + 1), ⟨h.snapshots, h.cursor + 1⟩)

/-- History scenario: states a, b, c added in order. -/
def histS3 : HistoryManager := hAdd (hAdd (hAdd historyEmpty "a") "b") "c"

/-- History scenario: first undo. -/
def histU1 : Option String × HistoryManager := hUndo histS3

/-- History scenario: second undo. -/
def histU2 : Option String × HistoryManager := hUndo histU1.2

/-- History scenario: third undo. -/
def histU3 : Option String × HistoryManager := hUndo histU2.2

/-- History scenario: first redo. -/
def histR1 : Option String × HistoryManager := hRedo histU3.2

/-- History scenario: d added after the redo. -/
def histS4 : HistoryManager := hAdd histR1.2 "d"

/-- History scenario: final redo. -/
def histR2 : Option String × HistoryManager := hRedo histS4

/-- QValidator verdicts used by the namespace field validator. -/
inductive VState where
  | Invalid
  | Intermediate
  | Acceptable
deriving DecidableEq

/-- Namespace-prefix state of the main window: the current synthesized or
edited prefix `ns` and the live namespace map `nsmap`.  Values are optional
because `dict.get` of a missing key stores Python `None`. -/
structure NsState where
  ns : String
  nsmap : List (String × Option String)
deriving DecidableEq

/-- `dict.get(key)` on the namespace map. -/
def dictGet : List (String × Option String) → String → Option String
  | [], _ => none
  | (k, v) :: rest, q => if k = q then v else dictGet rest q

/-- `dict[key] = value`: replace in place or append. -/
def dictSet : List (String × Option String) → String → Option String →
    List (String × Option String)
  | [], k, v => [(k, v)]
  | (k0, v0) :: rest, k, v =>
    if k0 = k then (k0, v) :: rest else (k0, v0) :: dictSet rest k v

/-- `del dict[key]` (the key is present in every reachable call). -/
def dictDel : List (String × Option String) → String → List (String × Option String)
  | [], _ => []
  | (k0, v0) :: rest, k => if k0 = k then rest else (k0, v0) :: dictDel rest k

/-- `NameSpaceValidator.validate` (app.py lines 33-41), state part: reject
when the candidate differs from the current prefix but is already a key;
otherwise store the current prefix's URI under the candidate and, when the
candidate differs, delete the old entry and adopt the candidate as current
prefix.  The `(v, pos)` pass-through of the Qt API is omitted. -/
def validate (st : NsState) (v : String) : VState × NsState :=
  if v ≠ st.ns ∧ v ∈ st.nsmap.map Prod.fst then (.Invalid, st)
  else
    if v ≠ st.ns then
      (.Acceptable, ⟨v, dictDel (dictSet st.nsmap v (dictGet st.nsmap st.ns)) st.ns⟩)
    else (.Acceptable, ⟨st.ns, dictSet st.nsmap v (dictGet st.nsmap st.ns)⟩)

/-- Value kinds an XPath evaluation hands to `pretty_print`: an element-level
node, a whole document, or a primitive (string, number, boolean).  The
numeric payload is immaterial to the control flow modelled here. -/
inductive XPathValue where
  | nodeVal (n : XmlNode)
  | docVal (d : XmlDoc)
  | strVal (s : String)
  | numVal (q : Int)
  | boolVal (b : Bool)
deriving DecidableEq

/-- Whether the value is an element node. -/
def isNodeVal : XPathValue → Bool
  | .nodeVal _ => true
  | _ => false

/-- `strip_namespaces` applied to an arbitrary value, as `pretty_print` does:
on an element it is the strip (whose only failure is the TypeError on a
processing instruction); on anything else the very first attribute access
`source_elem.tag` raises AttributeError. -/
def stripValue : XPathValue → Except PyErr XmlNode
  | .nodeVal n =>
    match stripNamespaces n with
    | some m => .ok m
    | none => .error .typeError
  | _ => .error .attributeError

/-- `pretty_print` (xml_utils.py lines 87-93) over an abstract serializer
(`etree.tostring`, an external collaborator) and an abstract `str()` fallback:
the try block optionally strips, then serializes; TypeError and ValueError are
caught and replaced by `str(node)` where `node` is the value bound at the
moment of failure; any other exception propagates. -/
def pretty_print (serializeFn : XPathValue → Except PyErr String)
    (pyStrFn : XPathValue → String) (node : XPathValue) (strip_ns : Bool) :
    Except PyErr String :=
  if strip_ns then
    match stripValue node with
    | .error e =>
      if e = PyErr.typeError ∨ e = PyErr.valueError then .ok (pyStrFn node) else .error e
    | .ok m =>
      match serializeFn (.nodeVal m) with
      | .ok s => .ok s
      | .error e =>
        if e = PyErr.typeError ∨ e = PyErr.valueError then .ok (pyStrFn (.nodeVal m))
        else .error e
  else
    match serializeFn node with
    | .ok s => .ok s
    | .error e =>
      if e = PyErr.typeError ∨ e = PyErr.valueError then .ok (pyStrFn node) else .error e

mutual
/-- Name discipline under which a stripped tree strips to itself: the local
part of the element tag has no further brace, and every attribute is either
dropped by the strip or has a local part that has no further brace and does
not start with the reserved token. -/
def cleanNames : XmlNode → Bool
  | .element tag attribs _ _ children =>
    braceFree (localPart tag) &&
      attribs.all (fun kv =>
        isDroppedKey kv.1 ||
          (braceFree (localPart kv.1) && !(strStarts (localPart kv.1) "xmlns"))) &&
      cleanForest children
  | .comment _ _ => true
  | .procInst _ _ _ => true
/-- Forest version of `cleanNames`. -/
def cleanForest : XmlForest → Bool
  | .nil => true
  | .cons c cs => cleanNames c && cleanForest cs
end

/-- Document `<r><r/></r>`: a tag that directly contains itself. -/
def docRec : XmlDoc :=
  ⟨.element "r" [] none none (.cons (.element "r" [] none none .nil) .nil), []⟩

/-- Root declarations with a second prefix bound to the default URI. -/
def docC1 : XmlDoc :=
  ⟨.element "\x7burn:x\x7droot" [] none none .nil, [(none, "urn:x"), (some "p", "urn:x")]⟩

/-- Parser stub always yielding `docC1`. -/
def parseC1 : String → Except PyErr XmlDoc := fun _ => .ok docC1

/-- Root declarations where the base token is already a declared prefix. -/
def docW1 : XmlDoc :=
  ⟨.element "\x7burn:x\x7droot" [] none none .nil, [(none, "urn:x"), (some "ns", "urn:y")]⟩

/-- Parser stub always yielding `docW1`. -/
def parseW1 : String → Except PyErr XmlDoc := fun _ => .ok docW1

/-- Document with a single element carrying a namespaced attribute. -/
def docC6 : XmlDoc := ⟨.element "e" [("\x7burn:x\x7da", "1")] none none .nil, []⟩

/-- Element whose namespaced attribute has a local part starting with the
reserved token. -/
def nodeC7 : XmlNode := .element "e" [("\x7bu\x7dxmlnsfoo", "1")] none none .nil

/-- First strip of `nodeC7`. -/
def nodeC7a : XmlNode := .element "e" [("xmlnsfoo", "1")] none none .nil

/-- Second strip of `nodeC7`: the attribute is gone. -/
def nodeC7b : XmlNode := .element "e" [] none none .nil

/-- Namespaced element with a namespaced attribute, in the clean fragment. -/
def nodeW7 : XmlNode := .element "\x7bu\x7de" [("\x7bu\x7da", "1")] none none .nil

/-- Strip of `nodeW7`. -/
def nodeW7s : XmlNode := .element "e" [("a", "1")] none none .nil

/-- Plain parsed document for the parse-propagation witness. -/
def docC8 : XmlDoc := ⟨.element "r" [] none none .nil, []⟩

/-- Parser stub that succeeds with `docC8`. -/
def parseC8ok : String → Except PyErr XmlDoc := fun _ => .ok docC8

/-- Parser stub that fails like an unreadable or malformed file. -/
def parseC8err : String → Except PyErr XmlDoc := fun _ => .error .parseFail

/-- Namespace state with a second prefix bound to the default URI. -/
def stC9 : NsState := ⟨"ns", [("ns", some "urn:x"), ("p", some "urn:x")]⟩

/-- Namespace state for the rename witness. -/
def stW9 : NsState := ⟨"ns", [("ns", some "urn:x"), ("p", some "urn:q")]⟩

/-- Serializer stub that always succeeds. -/
def serializeC10 : XPathValue → Except PyErr String := fun _ => .ok "serialized"

/-- Fallback `str()` stub. -/
def pyStrC10 : XPathValue → String := fun _ => "str-render"

/-- Filtering with a stronger predicate keeps at most as many elements. -/
theorem filterLenLe (l : List α) (p q : α → Bool)
    (himp : ∀ a, q a = true → p a = true) :
    (l.filter q).length ≤ (l.filter p).length := by
  induction l with
  | nil => simp
  | cons a t ih =>
    by_cases hq : q a = true
    · have hp := himp a hq
      simp [List.filter_cons, hq, hp]
      omega
    · rw [Bool.not_eq_true] at hq
      by_cases hp : p a = true
      · simp [List.filter_cons, hq, hp]
        omega
      · rw [Bool.not_eq_true] at hp
        simp [List.filter_cons, hq, hp]
        exact ih

/-- Filtering with a strictly stronger predicate, witnessed by a member that
satisfies only the weaker one, keeps strictly fewer elements. -/
theorem filterLenLt (l : List α) (p q : α → Bool)
    (himp : ∀ a, q a = true → p a = true) (x : α) (hx : x ∈ l)
    (hpx : p x = true) (hqx : q x = false) :
    (l.filter q).length < (l.filter p).length := by
  induction l with
  | nil => cases hx
  | cons a t ih =>
    rcases List.mem_cons.mp hx with rfl | hxt
    · simp [List.filter_cons, hpx, hqx]
      have := filterLenLe t p q himp
      omega
    · have hlt := ih hxt
      by_cases hq : q a = true
      · have hp := himp a hq
        simp [List.filter_cons, hq, hp]
        omega
      · rw [Bool.not_eq_true] at hq
        by_cases hp : p a = true
        · simp [List.filter_cons, hq, hp]
          omega
        · rw [Bool.not_eq_true] at hp
          simp [List.filter_cons, hq, hp]
          exact hlt

/-- Pointwise equal functions give equal concatenated images. -/
theorem concatMapCongr {f g : α → List β} :
    ∀ (l : List α), (∀ a ∈ l, f a = g a) → concatMap f l = concatMap g l := by
  intro l
  induction l with
  | nil => intro _; rfl
  | cons a t ih =>
    intro h
    simp only [concatMap]
    rw [h a (List.mem_cons_self a t), ih (fun b hb => h b (List.mem_cons_of_mem a hb))]

/-- Appending the disambiguation character grows the length by one. -/
theorem strLenUnderscore (cur : String) : (cur ++ "_").length = cur.length + 1 := by
  rw [String.length_append]; rfl

/-- C2: starting from an empty History, add a, b, c; undo yields b then a,
the third undo is absent and leaves the state unchanged; redo yields b; after
an intervening add of d, redo is absent because the redo branch was
discarded. -/
theorem c2_history_scenario :
    histU1.1 = some "b" ∧ histU2.1 = some "a" ∧ histU3.1 = none ∧ histU3.2 = histU2.2 ∧
      histR1.1 = some "b" ∧ histR2.1 = none ∧ histR2.2 = histS4 := by
  decide

/-- C5 (amended): a comment node is rebuilt with its text payload unchanged
and no tail; a processing-instruction node raises TypeError (the strip has no
case for it), modelled as `none`. -/
theorem c5_comment_copied_pi_raises :
    (∀ (t tl : Option String),
      stripNamespaces (XmlNode.comment t tl) = some (XmlNode.comment t none)) ∧
    (∀ (tg : String) (t tl : Option String),
      stripNamespaces (XmlNode.procInst tg t tl) = none) := by
  exact ⟨fun t tl => rfl, fun tg t tl => rfl⟩

/-- C5 counterexample: on a processing instruction, `strip_namespaces` does
not return a copy at all; the containment test on the non-string tag raises
TypeError, so no node is produced. -/
theorem c5_counterexample :
    ¬ ∃ z, stripNamespaces (XmlNode.procInst "target" (some "data") none) = some z := by
  intro h
  obtain ⟨z, hz⟩ := h
  simp [stripNamespaces] at hz

/-- C1 counterexample: for the document declaring `urn:x` both as default
namespace and under prefix `p`, parse_xml returns the map
`[(ns, urn:x), (p, urn:x)]`, which has two entries whose value is the
default URI, not exactly one. -/
theorem c1_counterexample :
    parse_xml parseC1 "f" =
      Except.ok (docC1, some [("ns", "urn:x"), ("p", "urn:x")], some "ns") ∧
    (([("ns", "urn:x"), ("p", "urn:x")] : List (String × String)).filter
        (fun kv => kv.2 == "urn:x")).length = 2 := by
  decide

/-- C4 counterexample: `xmlnsfoo` is not a namespace-declaration attribute in
the spec's sense (not the reserved name, not in the reserved namespace), yet
the strip drops it because it merely starts with the reserved token. -/
theorem c4_counterexample :
    isNsDeclAttr "xmlnsfoo" = false ∧ stripAttribs [("xmlnsfoo", "1")] = [] := by
  decide

/-- C6 counterexample: the summary's attribute set stores the raw Clark-form
attribute key, not its local name, so for the document with one element
`e` carrying attribute key `\x7burn:x\x7da` the reported set is that raw key
and the local name `a` is absent from it. -/
theorem c6_counterexample :
    (ttFind (tagTreeOf docC6) "e").attributes = ["\x7burn:x\x7da"] ∧
    "a" ∉ (ttFind (tagTreeOf docC6) "e").attributes := by
  decide

/-- C7 counterexample: stripping once keeps attribute `\x7bu\x7dxmlnsfoo` as
`xmlnsfoo`, and stripping the result again removes it, so the strip is not a
fixed point on its own output at this input. -/
theorem c7_counterexample :
    stripNamespaces nodeC7 = some nodeC7a ∧
    stripNamespaces nodeC7a = some nodeC7b ∧ nodeC7a ≠ nodeC7b := by
  decide

/-- C9 counterexample: from state (ns, [(ns, urn:x), (p, urn:x)]) the rename
to the empty string is accepted, after which the map holds the empty string
as a key (violating the non-empty-key invariant) and two prefixes map to the
default URI (violating uniqueness of the default-namespace entry). -/
theorem c9_counterexample :
    (validate stC9 "").1 = VState.Acceptable ∧
    (validate stC9 "").2.nsmap = [("p", some "urn:x"), ("", some "urn:x")] ∧
    "" ∈ (validate stC9 "").2.nsmap.map Prod.fst ∧
    ((validate stC9 "").2.nsmap.filter (fun kv => kv.2 == some "urn:x")).length = 2 := by
  decide

/-- C10 counterexample: a non-node value (a string result) with stripping
requested makes `strip_namespaces` dereference `.tag` on a non-element,
raising AttributeError, which is not caught; no string is returned. -/
theorem c10_counterexample :
    pretty_print serializeC10 pyStrC10 (.strVal "x") true =
      Except.error PyErr.attributeError ∧
    ¬ ∃ s, pretty_print serializeC10 pyStrC10 (.strVal "x") true = Except.ok s := by
  constructor
  · rfl
  · intro h
    obtain ⟨s, hs⟩ := h
    simp [pretty_print, stripValue, serializeC10] at hs

/-- The synthesis loop leaves the key set once the fuel exceeds the number of
keys at least as long as the current candidate: each rejected candidate is a
key of the current length, and every later candidate is strictly longer. -/
theorem synthAux_notMem (keys : List String) :
    ∀ (fuel : Nat) (cur : String),
      (keys.filter (fun k => decide (cur.length ≤ k.length))).length < fuel →
      synthAux keys fuel cur ∉ keys := by
  intro fuel
  induction fuel with
  | zero => intro cur h; omega
  | succ n ih =>
    intro cur h
    by_cases hm : cur ∈ keys
    · rw [synthAux, if_pos hm]
      apply ih
      have himp : ∀ a : String,
          decide ((cur ++ "_").length ≤ a.length) = true →
            decide (cur.length ≤ a.length) = true := by
        intro a ha
        rw [decide_eq_true_iff] at ha ⊢
        rw [strLenUnderscore] at ha
        omega
      have hqx : decide ((cur ++ "_").length ≤ cur.length) = false := by
        rw [decide_eq_false_iff_not, strLenUnderscore]
        omega
      have hlt :=
        filterLenLt keys (fun k => decide (cur.length ≤ k.length))
          (fun k => decide ((cur ++ "_").length ≤ k.length)) himp cur hm (by simp) hqx
      omega
    · rw [synthAux, if_neg hm]
      exact hm

/-- The synthesized token is not a declared prefix. -/
theorem synthNs_notMem (m : List (Option String × String)) : synthNs m ∉ strKeys m := by
  apply synthAux_notMem
  have := List.length_filter_le (fun k => decide (("ns" : String).length ≤ k.length)) (strKeys m)
  omega

/-- The synthesized token, as an optional key, is absent from the original
declaration dict. -/
theorem someSynthNs_notMem (m : List (Option String × String)) :
    some (synthNs m) ∉ m.map Prod.fst := by
  intro h
  obtain ⟨kv, hkv, hfst⟩ := List.mem_map.mp h
  exact synthNs_notMem m (List.mem_filterMap.mpr ⟨kv, hkv, hfst⟩)

/-- A successful default-namespace lookup means the `None` key is declared. -/
theorem nsGet_none_mem (m : List (Option String × String)) (u : String)
    (h : nsGet m none = some u) : none ∈ m.map Prod.fst := by
  induction m with
  | nil => simp [nsGet] at h
  | cons kv rest ih =>
    obtain ⟨k, v⟩ := kv
    by_cases hk : k = none
    · subst hk; simp
    · rw [nsGet] at h
      rw [if_neg hk] at h
      simp [ih h]

/-- After re-keying, no entry except the rewritten default one carries the
synthesized key, provided the token was fresh and the dict held no further
default entry. -/
theorem rekeyFilterNil (ns : String) :
    ∀ (m : List (Option String × String)),
      some ns ∉ m.map Prod.fst → none ∉ m.map Prod.fst →
      (m.map (rekeyDefault ns)).filter (fun kv => kv.1 == ns) = [] := by
  intro m
  induction m with
  | nil => intro _ _; rfl
  | cons kv rest ih =>
    intro hns hnone
    obtain ⟨k, v⟩ := kv
    simp only [List.map_cons, List.mem_cons] at hns hnone
    match k with
    | none => exact absurd (Or.inl rfl) hnone
    | some k' =>
      have hk' : k' ≠ ns := by
        intro he; exact hns (Or.inl (by rw [he]))
      simp only [List.map_cons, rekeyDefault, List.filter_cons]
      rw [show ((k', v).1 == ns) = false from beq_eq_false_iff_ne.mpr hk']
      exact ih (fun h => hns (Or.inr h)) (fun h => hnone (Or.inr h))

/-- Exactly one entry of the re-keyed map carries the synthesized key, when
the original keys are unique, the default key is present and the token is
fresh. -/
theorem rekeyCountOne (ns : String) :
    ∀ (m : List (Option String × String)),
      some ns ∉ m.map Prod.fst → (m.map Prod.fst).Nodup → none ∈ m.map Prod.fst →
      ((m.map (rekeyDefault ns)).filter (fun kv => kv.1 == ns)).length = 1 := by
  intro m
  induction m with
  | nil => intro _ _ h; simp at h
  | cons kv rest ih =>
    intro hns hnodup hnone
    obtain ⟨k, v⟩ := kv
    simp only [List.map_cons, List.mem_cons] at hns
    rw [List.map_cons, List.nodup_cons] at hnodup
    match k with
    | none =>
      simp only [List.map_cons, rekeyDefault, List.filter_cons]
      rw [show ((ns, v).1 == ns) = true from beq_self_eq_true ns]
      rw [rekeyFilterNil ns rest (fun h => hns (Or.inr h)) hnodup.1]
      rfl
    | some k' =>
      have hk' : k' ≠ ns := by
        intro he; exact hns (Or.inl (by rw [he]))
      have hnone' : none ∈ rest.map Prod.fst := by
        simp only [List.map_cons, List.mem_cons] at hnone
        rcases hnone with h | h
        · exact absurd h.symm (Option.some_ne_none k')
        · exact h
      simp only [List.map_cons, rekeyDefault, List.filter_cons]
      rw [show ((k', v).1 == ns) = false from beq_eq_false_iff_ne.mpr hk']
      exact ih (fun h => hns (Or.inr h)) hnodup.2 hnone'

/-- The re-keyed map binds the synthesized key to the default-namespace URI. -/
theorem rekeyLookup (ns : String) :
    ∀ (m : List (Option String × String)) (u : String),
      some ns ∉ m.map Prod.fst → nsGet m none = some u →
      nsGetS (m.map (rekeyDefault ns)) ns = some u := by
  intro m
  induction m with
  | nil => intro u _ h; simp [nsGet] at h
  | cons kv rest ih =>
    intro u hns hget
    obtain ⟨k, v⟩ := kv
    simp only [List.map_cons, List.mem_cons] at hns
    match k with
    | none =>
      rw [nsGet, if_pos rfl] at hget
      obtain rfl : v = u := by injection hget
      simp [rekeyDefault, nsGetS]
    | some k' =>
      have hk' : k' ≠ ns := by
        intro he; exact hns (Or.inl (by rw [he]))
      rw [nsGet, if_neg (by simp)] at hget
      simp only [List.map_cons, rekeyDefault, nsGetS]
      rw [if_neg hk']
      exact ih u (fun h => hns (Or.inr h)) hget

/-- C1 (amended): when the root declares a truthy default namespace URI `u`
with unique keys, parse_xml yields a synthesized token (built from `ns` by
appending underscores) that is not among the declared prefixes, and the
returned map is the original dict with only the default entry re-keyed to the
token: exactly one entry carries that key, it maps to `u`, and every other
entry is untouched. -/
theorem c1_default_ns_rekeyed (parseFn : String → Except PyErr XmlDoc) (path : String)
    (doc : XmlDoc) (u : String)
    (hparse : parseFn path = Except.ok doc)
    (hnodup : (doc.rootNsDecls.map Prod.fst).Nodup)
    (hdef : nsGet doc.rootNsDecls none = some u)
    (hne : u ≠ "") :
    some (synthNs doc.rootNsDecls) ∉ doc.rootNsDecls.map Prod.fst ∧
    parse_xml parseFn path =
      Except.ok (doc, some (doc.rootNsDecls.map (rekeyDefault (synthNs doc.rootNsDecls))),
        some (synthNs doc.rootNsDecls)) ∧
    ((doc.rootNsDecls.map (rekeyDefault (synthNs doc.rootNsDecls))).filter
        (fun kv => kv.1 == synthNs doc.rootNsDecls)).length = 1 ∧
    nsGetS (doc.rootNsDecls.map (rekeyDefault (synthNs doc.rootNsDecls)))
        (synthNs doc.rootNsDecls) = some u := by
  refine ⟨someSynthNs_notMem doc.rootNsDecls, ?_, ?_, ?_⟩
  · simp [parse_xml, hparse, bind, Except.bind, pure, Except.pure, normalizeNsmap, hdef, hne]
  · exact rekeyCountOne _ _ (someSynthNs_notMem doc.rootNsDecls) hnodup
      (nsGet_none_mem _ u hdef)
  · exact rekeyLookup _ _ u (someSynthNs_notMem doc.rootNsDecls) hdef

/-- C1 witness: a document whose root already declares prefix `ns` gets the
disambiguated token with one appended underscore, and the map is re-keyed
accordingly. -/
theorem c1_witness :
    some (synthNs docW1.rootNsDecls) ∉ docW1.rootNsDecls.map Prod.fst ∧
    parse_xml parseW1 "f" =
      Except.ok (docW1, some (docW1.rootNsDecls.map (rekeyDefault (synthNs docW1.rootNsDecls))),
        some (synthNs docW1.rootNsDecls)) ∧
    ((docW1.rootNsDecls.map (rekeyDefault (synthNs docW1.rootNsDecls))).filter
        (fun kv => kv.1 == synthNs docW1.rootNsDecls)).length = 1 ∧
    nsGetS (docW1.rootNsDecls.map (rekeyDefault (synthNs docW1.rootNsDecls)))
        (synthNs docW1.rootNsDecls) = some "urn:x" :=
  c1_default_ns_rekeyed parseW1 "f" docW1 "urn:x" rfl (by decide) (by decide) (by decide)

/-- C8: parse_xml propagates any failure of the underlying parse unchanged,
returning no document, and on a successful parse returns exactly the parsed
document (the second parse of the same path, equal to the first since parsing
a fixed file is deterministic) together with the namespace data. -/
theorem c8_parse_error_propagation (parseFn : String → Except PyErr XmlDoc)
    (path : String) :
    (∀ e, parseFn path = .error e → parse_xml parseFn path = .error e) ∧
    (∀ d, parseFn path = .ok d →
      parse_xml parseFn path =
        .ok (d, (normalizeNsmap d.rootNsDecls).1, (normalizeNsmap d.rootNsDecls).2)) := by
  constructor
  · intro e he
    simp [parse_xml, he, bind, Except.bind, pure, Except.pure]
  · intro d hd
    simp [parse_xml, hd, bind, Except.bind, pure, Except.pure]

/-- C8 witness: a failing parse propagates its error through parse_xml, and a
successful parse returns the parsed document with no default namespace. -/
theorem c8_witness :
    parse_xml parseC8err "f" = .error PyErr.parseFail ∧
    parse_xml parseC8ok "f" =
      .ok (docC8, (normalizeNsmap docC8.rootNsDecls).1, (normalizeNsmap docC8.rootNsDecls).2) :=
  ⟨(c8_parse_error_propagation parseC8err "f").1 PyErr.parseFail rfl,
   (c8_parse_error_propagation parseC8ok "f").2 docC8 rfl⟩

/-- Storing back the value already held at an existing key is a no-op. -/
theorem dictSet_self :
    ∀ (m : List (String × Option String)) (k : String),
      k ∈ m.map Prod.fst → dictSet m k (dictGet m k) = m := by
  intro m
  induction m with
  | nil => intro k h; simp at h
  | cons kv rest ih =>
    intro k h
    obtain ⟨k0, v0⟩ := kv
    by_cases hk : k0 = k
    · subst hk
      simp [dictGet, dictSet]
    · have hmem : k ∈ rest.map Prod.fst := by
        simp only [List.map_cons, List.mem_cons] at h
        rcases h with h | h
        · exact absurd h.symm hk
        · exact h
      simp only [dictGet, dictSet, if_neg hk]
      rw [ih k hmem]

/-- Setting a fresh key appends the new entry. -/
theorem dictSet_fresh :
    ∀ (m : List (String × Option String)) (k : String) (v : Option String),
      k ∉ m.map Prod.fst → dictSet m k v = m ++ [(k, v)] := by
  intro m
  induction m with
  | nil => intro k v _; rfl
  | cons kv rest ih =>
    intro k v h
    obtain ⟨k0, v0⟩ := kv
    simp only [List.map_cons, List.mem_cons] at h
    push_neg at h
    rw [dictSet, if_neg (fun he => h.1 he.symm), ih k v h.2]
    rfl

/-- Deleting a key distinct from a trailing fresh entry acts on the front. -/
theorem dictDel_append_single :
    ∀ (m : List (String × Option String)) (q k : String) (v : Option String),
      k ≠ q → dictDel (m ++ [(k, v)]) q = dictDel m q ++ [(k, v)] := by
  intro m
  induction m with
  | nil =>
    intro q k v hk
    simp [dictDel, hk]
  | cons kv rest ih =>
    intro q k v hk
    obtain ⟨k0, v0⟩ := kv
    by_cases h0 : k0 = q
    · simp [dictDel, h0]
    · simp only [List.cons_append, dictDel, if_neg h0]
      exact congrArg (fun l => (k0, v0) :: l) (ih q k v hk)

/-- C9 (amended): from a state whose current prefix is a key of the map, a
no-op rename to the current prefix is always accepted and leaves the state
unchanged; a rename to any other string that is not yet a key (the empty
string included) is accepted and turns the map into the original with the
old prefix entry removed and the new entry, carrying the old prefix's URI,
appended at the end, all other entries untouched in order and value; a rename
to any other existing key is rejected with the state unchanged.  The code
guarantees neither that keys stay non-empty nor that only one prefix maps to
the default URI. -/
theorem c9_rename_shape (st : NsState) (hns : st.ns ∈ st.nsmap.map Prod.fst) :
    validate st st.ns = (VState.Acceptable, st) ∧
    (∀ v, v ≠ st.ns → v ∉ st.nsmap.map Prod.fst →
      validate st v =
        (VState.Acceptable, ⟨v, dictDel st.nsmap st.ns ++ [(v, dictGet st.nsmap st.ns)]⟩)) ∧
    (∀ v, v ≠ st.ns → v ∈ st.nsmap.map Prod.fst → validate st v = (VState.Invalid, st)) := by
  refine ⟨?_, ?_, ?_⟩
  · rw [validate]
    rw [if_neg (by simp)]
    rw [if_neg (by simp)]
    rw [dictSet_self st.nsmap st.ns hns]
  · intro v hv hvmem
    rw [validate]
    rw [if_neg (by
      intro hc
      exact hvmem hc.2)]
    rw [if_pos hv]
    rw [dictSet_fresh st.nsmap v (dictGet st.nsmap st.ns) hvmem]
    rw [dictDel_append_single st.nsmap st.ns v (dictGet st.nsmap st.ns) hv]
  · intro v hv hvmem
    rw [validate]
    rw [if_pos ⟨hv, hvmem⟩]

/-- C9 witness: from state (ns, [(ns, urn:x), (p, urn:q)]) the no-op rename
is accepted unchanged, the rename to x moves the default entry to the end
under x, and the rename to the taken prefix p is rejected. -/
theorem c9_witness :
    validate stW9 "ns" = (VState.Acceptable, stW9) ∧
    validate stW9 "x" =
      (VState.Acceptable,
        ⟨"x", dictDel stW9.nsmap stW9.ns ++ [("x", dictGet stW9.nsmap stW9.ns)]⟩) ∧
    validate stW9 "p" = (VState.Invalid, stW9) :=
  ⟨(c9_rename_shape stW9 (by decide)).1,
   (c9_rename_shape stW9 (by decide)).2.1 "x" (by decide) (by decide),
   (c9_rename_shape stW9 (by decide)).2.2 "p" (by decide) (by decide)⟩

/-- C10 (amended): when the serializer can only fail with TypeError or
ValueError (as `etree.tostring` does), pretty_print returns a string for
every value when no strip is requested and for every element node when a
strip is requested, never letting TypeError or ValueError escape; but for a
non-node value with the strip requested, the attribute access inside
`strip_namespaces` raises AttributeError, which propagates uncaught. -/
theorem c10_pretty_print_errors (serializeFn : XPathValue → Except PyErr String)
    (pyStrFn : XPathValue → String)
    (hser : ∀ w, serializeFn w = .error PyErr.typeError ∨
      serializeFn w = .error PyErr.valueError ∨ ∃ s, serializeFn w = .ok s) :
    (∀ (v : XPathValue) (b : Bool), b = false ∨ isNodeVal v = true →
      ∃ s, pretty_print serializeFn pyStrFn v b = .ok s) ∧
    (∀ v : XPathValue, isNodeVal v = false →
      pretty_print serializeFn pyStrFn v true = .error PyErr.attributeError) := by
  constructor
  · intro v b hb
    cases b with
    | false =>
      rcases hser v with h | h | ⟨s, h⟩ <;> simp [pretty_print, h]
    | true =>
      have hv : isNodeVal v = true := by
        rcases hb with h | h
        · cases h
        · exact h
      match v, hv with
      | .nodeVal n, _ =>
        cases hsn : stripNamespaces n with
        | none => simp [pretty_print, stripValue, hsn]
        | some m =>
          rcases hser (.nodeVal m) with h | h | ⟨s, h⟩ <;>
            simp [pretty_print, stripValue, hsn, h]
  · intro v hv
    match v, hv with
    | .docVal d, _ => rfl
    | .strVal s, _ => rfl
    | .numVal q, _ => rfl
    | .boolVal b, _ => rfl

/-- C10 witness: with an always-succeeding serializer, a string value without
stripping yields a string, a node value with stripping yields a string, and a
string value with stripping propagates AttributeError. -/
theorem c10_witness :
    (∃ s, pretty_print serializeC10 pyStrC10 (.strVal "x") false = .ok s) ∧
    (∃ s, pretty_print serializeC10 pyStrC10 (.nodeVal (.comment none none)) true = .ok s) ∧
    pretty_print serializeC10 pyStrC10 (.boolVal true) true =
      .error PyErr.attributeError := by
  have hser : ∀ w, serializeC10 w = .error PyErr.typeError ∨
      serializeC10 w = .error PyErr.valueError ∨ ∃ s, serializeC10 w = .ok s :=
    fun w => Or.inr (Or.inr ⟨"serialized", rfl⟩)
  exact ⟨(c10_pretty_print_errors serializeC10 pyStrC10 hser).1 (.strVal "x") false
      (Or.inl rfl),
    (c10_pretty_print_errors serializeC10 pyStrC10 hser).1 (.nodeVal (.comment none none)) true
      (Or.inr rfl),
    (c10_pretty_print_errors serializeC10 pyStrC10 hser).2 (.boolVal true) rfl⟩

/-- Every pair of an lxml-style `set` result is an old pair or the new one. -/
theorem mem_attrSetD :
    ∀ (acc : List (String × String)) (k v : String) (kv : String × String),
      kv ∈ attrSetD acc k v → kv ∈ acc ∨ kv = (k, v) := by
  intro acc
  induction acc with
  | nil =>
    intro k v kv h
    simp [attrSetD] at h
    exact Or.inr h
  | cons a rest ih =>
    intro k v kv h
    obtain ⟨k0, v0⟩ := a
    by_cases h0 : k0 = k
    · subst h0
      rw [attrSetD, if_pos rfl] at h
      rcases List.mem_cons.mp h with h | h
      · exact Or.inr (by rw [h])
      · exact Or.inl (List.mem_cons_of_mem _ h)
    · rw [attrSetD, if_neg h0] at h
      rcases List.mem_cons.mp h with h | h
      · rw [h]
        exact Or.inl (List.mem_cons_self _ _)
      · rcases ih k v kv h with h | h
        · exact Or.inl (List.mem_cons_of_mem _ h)
        · exact Or.inr h

/-- Setting a key absent from the attribute dict appends the pair. -/
theorem attrSetD_fresh :
    ∀ (acc : List (String × String)) (k v : String),
      k ∉ acc.map Prod.fst → attrSetD acc k v = acc ++ [(k, v)] := by
  intro acc
  induction acc with
  | nil => intro k v _; rfl
  | cons a rest ih =>
    intro k v h
    obtain ⟨k0, v0⟩ := a
    simp only [List.map_cons, List.mem_cons] at h
    push_neg at h
    rw [attrSetD, if_neg (fun he => h.1 he.symm), ih k v h.2]
    rfl

/-- Key list of an lxml-style `set`: unchanged when the key exists, extended
by the key otherwise. -/
theorem keys_attrSetD :
    ∀ (acc : List (String × String)) (k v : String),
      (attrSetD acc k v).map Prod.fst =
        if k ∈ acc.map Prod.fst then acc.map Prod.fst else acc.map Prod.fst ++ [k] := by
  intro acc
  induction acc with
  | nil => intro k v; simp [attrSetD]
  | cons a rest ih =>
    intro k v
    obtain ⟨k0, v0⟩ := a
    by_cases h0 : k0 = k
    · subst h0
      simp [attrSetD]
    · rw [attrSetD, if_neg h0]
      simp only [List.map_cons, ih k v]
      by_cases hm : k ∈ rest.map Prod.fst
      · rw [if_pos hm, if_pos (by simp [hm])]
      · have hk0 : ¬ k = k0 := fun he => h0 he.symm
        rw [if_neg hm, if_neg (by simp [hm, hk0])]
        rfl

/-- The lxml-style `set` keeps attribute keys duplicate-free. -/
theorem nodup_attrSetD (acc : List (String × String)) (k v : String)
    (h : (acc.map Prod.fst).Nodup) : ((attrSetD acc k v).map Prod.fst).Nodup := by
  rw [keys_attrSetD]
  by_cases hm : k ∈ acc.map Prod.fst
  · rw [if_pos hm]
    exact h
  · rw [if_neg hm]
    rw [List.nodup_append]
    refine ⟨h, List.nodup_singleton k, ?_⟩
    intro a ha hk
    simp at hk
    subst hk
    exact hm ha

/-- The attribute loop keeps keys duplicate-free. -/
theorem nodup_stripFold :
    ∀ (l acc : List (String × String)), (acc.map Prod.fst).Nodup →
      ((l.foldl stripStep acc).map Prod.fst).Nodup := by
  intro l
  induction l with
  | nil => intro acc h; exact h
  | cons a t ih =>
    intro acc h
    rw [List.foldl_cons]
    apply ih
    rw [stripStep]
    by_cases hd : isDroppedKey a.1 = true
    · rw [if_pos hd]
      exact h
    · rw [if_neg hd]
      exact nodup_attrSetD acc _ _ h

/-- Every pair produced by the attribute loop is an initial pair or the
localized image of a kept input pair. -/
theorem mem_stripFold :
    ∀ (l acc : List (String × String)) (kv : String × String),
      kv ∈ l.foldl stripStep acc →
      kv ∈ acc ∨ ∃ kv0 ∈ l, isDroppedKey kv0.1 = false ∧ kv = (localPart kv0.1, kv0.2) := by
  intro l
  induction l with
  | nil => intro acc kv h; exact Or.inl h
  | cons a t ih =>
    intro acc kv h
    rw [List.foldl_cons] at h
    rcases ih _ kv h with h1 | ⟨kv0, hkv0, hd0, he⟩
    · rw [stripStep] at h1
      by_cases hd : isDroppedKey a.1 = true
      · rw [if_pos hd] at h1
        exact Or.inl h1
      · rw [if_neg hd] at h1
        rcases mem_attrSetD acc _ _ kv h1 with h2 | h2
        · exact Or.inl h2
        · rw [Bool.not_eq_true] at hd
          exact Or.inr ⟨a, List.mem_cons_self _ _, hd, h2⟩
    · exact Or.inr ⟨kv0, List.mem_cons_of_mem _ hkv0, hd0, he⟩

/-- When the localized kept keys are pairwise distinct, the attribute loop is
exactly filter-then-localize, appended to the accumulator. -/
theorem stripFoldAppend :
    ∀ (l acc : List (String × String)),
      ((acc ++ l.filterMap keptAttr).map Prod.fst).Nodup →
      l.foldl stripStep acc = acc ++ l.filterMap keptAttr := by
  intro l
  induction l with
  | nil => intro acc _; simp
  | cons a t ih =>
    intro acc h
    obtain ⟨k, v⟩ := a
    by_cases hd : isDroppedKey k = true
    · have hfm : List.filterMap keptAttr ((k, v) :: t) = List.filterMap keptAttr t := by
        rw [List.filterMap_cons]
        simp [keptAttr, hd]
      rw [hfm] at h
      rw [List.foldl_cons, show stripStep acc (k, v) = acc from by rw [stripStep, if_pos hd]]
      rw [ih acc h, hfm]
    · have hd' : isDroppedKey k = false := by rw [Bool.not_eq_true] at hd; exact hd
      have hfm : List.filterMap keptAttr ((k, v) :: t) =
          (localPart k, v) :: List.filterMap keptAttr t := by
        rw [List.filterMap_cons]
        simp [keptAttr, hd']
      rw [hfm] at h
      have h2 := h
      rw [List.map_append, List.nodup_append] at h2
      have hfresh : localPart k ∉ acc.map Prod.fst := by
        intro hmem
        exact h2.2.2 hmem (by simp)
      have hstep : stripStep acc (k, v) = acc ++ [(localPart k, v)] := by
        rw [stripStep, if_neg hd]
        exact attrSetD_fresh acc _ _ hfresh
      have hre : (acc ++ [(localPart k, v)]) ++ List.filterMap keptAttr t =
          acc ++ (localPart k, v) :: List.filterMap keptAttr t := by
        rw [List.append_assoc, List.singleton_append]
      rw [List.foldl_cons, hstep, ih (acc ++ [(localPart k, v)]) (by rw [hre]; exact h)]
      rw [hre, hfm]

/-- C4 (amended): the strip drops exactly the attributes whose key starts
with the reserved token (equality with it being a special case), and copies
every other attribute with its key reduced to its local part and its value
verbatim, in encounter order, whenever the localized kept keys are pairwise
distinct (a later duplicate local key would instead overwrite the earlier
entry in place, by lxml `set` semantics); the element built by the strip
carries exactly this processed attribute list. -/
theorem c4_attr_drop_localize :
    (∀ (tag : String) (attribs : List (String × String)) (tx tl : Option String)
        (children : XmlForest) (y : XmlNode),
      stripNamespaces (XmlNode.element tag attribs tx tl children) = some y →
      attribsOfNode y = stripAttribs attribs) ∧
    (∀ attribs : List (String × String),
      ((attribs.filterMap keptAttr).map Prod.fst).Nodup →
      stripAttribs attribs = attribs.filterMap keptAttr) := by
  constructor
  · intro tag attribs tx tl children y h
    rw [stripNamespaces] at h
    cases hf : stripForest children with
    | none => rw [hf] at h; cases h
    | some cs =>
      rw [hf] at h
      obtain rfl : XmlNode.element (localPart tag) (stripAttribs attribs) (truthyOpt tx)
          (truthyOpt tl) cs = y := by injection h
      rfl
  · intro attribs h
    have := stripFoldAppend attribs [] (by simpa using h)
    simpa [stripAttribs] using this

/-- C4 witness: a plain and a namespaced attribute with distinct local names
are kept localized in order, and the stripped element carries the processed
list. -/
theorem c4_witness :
    stripAttribs [("a", "1"), ("\x7bu\x7db", "2")] =
      List.filterMap keptAttr [("a", "1"), ("\x7bu\x7db", "2")] ∧
    attribsOfNode (XmlNode.element "e" [("a", "1")] none none XmlForest.nil) =
      stripAttribs [("a", "1")] :=
  ⟨c4_attr_drop_localize.2 [("a", "1"), ("\x7bu\x7db", "2")] (by decide),
   c4_attr_drop_localize.1 "e" [("a", "1")] none none XmlForest.nil
     (XmlNode.element "e" [("a", "1")] none none XmlForest.nil) (by decide)⟩

/-- A list without right braces has nothing after a first right brace. -/
theorem afterBrace_none : ∀ l : List Char, (∀ c ∈ l, ¬ c = rbrace) → afterBrace l = none := by
  intro l
  induction l with
  | nil => intro _; rfl
  | cons c cs ih =>
    intro h
    rw [afterBrace, if_neg (h c (List.mem_cons_self _ _))]
    exact ih (fun d hd => h d (List.mem_cons_of_mem _ hd))

/-- A brace-free name is its own local part. -/
theorem braceFree_localPart (s : String) (h : braceFree s = true) : localPart s = s := by
  have hn : afterBrace s.data = none := by
    apply afterBrace_none
    intro c hc
    have := List.all_eq_true.mp h c hc
    simpa using this
  rw [localPart, hn]

/-- The truthiness guard is idempotent: its output is `none` or a non-empty
string, both of which it fixes. -/
theorem truthyOpt_idem (o : Option String) : truthyOpt (truthyOpt o) = truthyOpt o := by
  cases o with
  | none => rfl
  | some s =>
    rw [truthyOpt]
    by_cases h : s = ""
    · rw [if_pos h]
      rfl
    · rw [if_neg h, truthyOpt, if_neg h]

/-- Filter-then-localize fixes a list of kept, already-local attributes. -/
theorem filterMapKeptId :
    ∀ l : List (String × String),
      (∀ kv ∈ l, isDroppedKey kv.1 = false ∧ localPart kv.1 = kv.1) →
      l.filterMap keptAttr = l := by
  intro l
  induction l with
  | nil => intro _; rfl
  | cons kv t ih =>
    intro h
    have hh := h kv (List.mem_cons_self _ _)
    rw [List.filterMap_cons]
    have hk : keptAttr kv = some kv := by
      rw [keptAttr, if_neg (by rw [hh.1]; exact Bool.false_ne_true)]
      rw [hh.2]
    rw [hk, ih (fun d hd => h d (List.mem_cons_of_mem _ hd))]

/-- Under the clean-name discipline, the attribute loop is idempotent: its
output consists of kept keys that are already their own local part. -/
theorem stripAttribs_clean (attribs : List (String × String))
    (hattr : attribs.all (fun kv =>
      isDroppedKey kv.1 ||
        (braceFree (localPart kv.1) && !(strStarts (localPart kv.1) "xmlns"))) = true) :
    stripAttribs (stripAttribs attribs) = stripAttribs attribs := by
  have hmem : ∀ kv ∈ stripAttribs attribs,
      isDroppedKey kv.1 = false ∧ localPart kv.1 = kv.1 := by
    intro kv hkv
    rcases mem_stripFold attribs [] kv hkv with h | ⟨kv0, hkv0, hd0, he⟩
    · cases h
    · have hp := List.all_eq_true.mp hattr kv0 hkv0
      rw [hd0] at hp
      simp only [Bool.false_or, Bool.and_eq_true, Bool.not_eq_true'] at hp
      subst he
      constructor
      · show isDroppedKey (localPart kv0.1) = false
        rw [isDroppedKey, hp.2]
        simp only [Bool.false_or]
        rw [beq_eq_false_iff_ne]
        intro heq
        rw [heq] at hp
        exact absurd hp.2 (by decide)
      · show localPart (localPart kv0.1) = localPart kv0.1
        exact braceFree_localPart _ hp.1
  have hnodup := nodup_stripFold attribs [] (by simp)
  have hid := filterMapKeptId (stripAttribs attribs) hmem
  have happ := stripFoldAppend (stripAttribs attribs) [] (by
    rw [List.nil_append, hid]
    exact hnodup)
  calc stripAttribs (stripAttribs attribs)
      = [] ++ List.filterMap keptAttr (stripAttribs attribs) := happ
    _ = stripAttribs attribs := by rw [List.nil_append, hid]

mutual
/-- Under the clean-name discipline, a successful strip of a node strips to
itself. -/
theorem stripFixedNode : ∀ (x y : XmlNode), cleanNames x = true →
    stripNamespaces x = some y → stripNamespaces y = some y
  | .comment t tl, y, _, hs => by
    rw [stripNamespaces] at hs
    obtain rfl : XmlNode.comment t none = y := by injection hs
    rfl
  | .procInst tg t tl, y, _, hs => by
    rw [stripNamespaces] at hs
    cases hs
  | .element tag attribs tx tl children, y, hc, hs => by
    rw [stripNamespaces] at hs
    cases hf : stripForest children with
    | none =>
      rw [hf] at hs
      cases hs
    | some cs =>
      rw [hf] at hs
      obtain rfl : XmlNode.element (localPart tag) (stripAttribs attribs) (truthyOpt tx)
          (truthyOpt tl) cs = y := by injection hs
      rw [cleanNames] at hc
      rw [Bool.and_eq_true, Bool.and_eq_true] at hc
      obtain ⟨⟨htag, hattr⟩, hchil⟩ := hc
      rw [stripNamespaces]
      rw [stripFixedForest children cs hchil hf]
      rw [braceFree_localPart _ htag]
      rw [stripAttribs_clean attribs hattr]
      rw [truthyOpt_idem, truthyOpt_idem]
/-- Forest version of `stripFixedNode`. -/
theorem stripFixedForest : ∀ (f g : XmlForest), cleanForest f = true →
    stripForest f = some g → stripForest g = some g
  | .nil, g, _, hs => by
    rw [stripForest] at hs
    obtain rfl : XmlForest.nil = g := by injection hs
    rfl
  | .cons c cs, g, hc, hs => by
    rw [stripForest] at hs
    rw [cleanForest, Bool.and_eq_true] at hc
    cases hn : stripNamespaces c with
    | none =>
      rw [hn] at hs
      cases hs
    | some cN =>
      cases hfr : stripForest cs with
      | none =>
        rw [hn, hfr] at hs
        cases hs
      | some csN =>
        rw [hn, hfr] at hs
        obtain rfl : XmlForest.cons cN csN = g := by injection hs
        rw [stripForest]
        rw [stripFixedNode c cN hc.1 hn, stripFixedForest cs csN hc.2 hfr]
end

/-- C7 (amended): for every node on which the strip succeeds (so no
processing instruction occurs in it) whose names are clean in the lxml sense,
meaning every element tag's local part contains no further right brace and
every kept attribute's local part contains no further right brace and does
not start with the reserved token, re-stripping the strip's output reproduces
it exactly; without the reserved-token condition a kept attribute such as one
named `xmlnsfoo` inside a namespace survives the first pass and is removed by
the second. -/
theorem c7_strip_fixed_point (x y : XmlNode) (hclean : cleanNames x = true)
    (hstrip : stripNamespaces x = some y) : stripNamespaces y = some y :=
  stripFixedNode x y hclean hstrip

/-- C7 witness: the namespaced element with a namespaced ordinary attribute
strips to a bare element, which strips to itself. -/
theorem c7_witness : stripNamespaces nodeW7s = some nodeW7s :=
  c7_strip_fixed_point nodeW7 nodeW7s (by decide) (by decide)

/-- Reading through a defaultdict write: the written tag yields the mutated
record, every other tag is untouched. -/
theorem ttFind_ttUpdate :
    ∀ (tt : TagTree) (s : String) (f : TagInfo → TagInfo) (t : String),
      ttFind (ttUpdate tt s f) t = if t = s then f (ttFind tt s) else ttFind tt t := by
  intro tt
  induction tt with
  | nil =>
    intro s f t
    by_cases h : t = s
    · subst h
      simp [ttUpdate, ttFind]
    · simp [ttUpdate, ttFind, h, Ne.symm h]
  | cons kv rest ih =>
    intro s f t
    obtain ⟨k, i⟩ := kv
    by_cases hks : k = s
    · subst hks
      by_cases htk : t = k
      · subst htk
        simp [ttUpdate, ttFind]
      · simp [ttUpdate, ttFind, htk, Ne.symm htk]
    · by_cases htk : k = t
      · subst htk
        have hts : ¬ k = s := hks
        simp [ttUpdate, ttFind, hks, hts]
      · simp [ttUpdate, ttFind, hks, htk, ih s f t]

/-- Membership after a set-style insertion. -/
theorem mem_insertNew (l : List String) (a x : String) :
    x ∈ insertNew l a ↔ x ∈ l ∨ x = a := by
  rw [insertNew]
  by_cases h : a ∈ l
  · rw [if_pos h]
    constructor
    · exact Or.inl
    · intro hx
      rcases hx with hx | hx
      · exact hx
      · rw [hx]
        exact h
  · rw [if_neg h]
    simp

/-- Membership after a set-style bulk update. -/
theorem mem_insertAll :
    ∀ (as l : List String) (x : String), x ∈ insertAll l as ↔ x ∈ l ∨ x ∈ as := by
  intro as
  induction as with
  | nil => intro l x; simp [insertAll]
  | cons a t ih =>
    intro l x
    rw [insertAll, List.foldl_cons]
    have hres := ih (insertNew l a) x
    rw [insertAll] at hres
    rw [hres, mem_insertNew]
    simp only [List.mem_cons]
    tauto

/-- A write that does not touch the attribute field leaves every tag's
attribute set unchanged. -/
theorem attrs_ttUpdate_pres (tt : TagTree) (s : String) (f : TagInfo → TagInfo)
    (hf : ∀ i, (f i).attributes = i.attributes) (t : String) :
    (ttFind (ttUpdate tt s f) t).attributes = (ttFind tt t).attributes := by
  rw [ttFind_ttUpdate]
  by_cases h : t = s
  · rw [if_pos h, hf, h]
  · rw [if_neg h]

/-- The parent bookkeeping only touches child counts. -/
theorem attrs_bumpParent (tt : TagTree) (p : Option String) (t0 t : String) :
    (ttFind (bumpParent tt p t0) t).attributes = (ttFind tt t).attributes := by
  cases p with
  | none => rfl
  | some q =>
    rw [bumpParent]
    by_cases h : q = ""
    · rw [if_pos h]
    · rw [if_neg h]
      exact attrs_ttUpdate_pres tt q
        (fun i => { i with children := bumpChild i.children t0 }) (fun i => rfl) t

/-- The attribute write unions the keys into exactly the written tag. -/
theorem attrs_ttUpdate_insert (tt : TagTree) (s : String) (ks : List String) (t : String) :
    (ttFind (ttUpdate tt s
        (fun i => { i with attributes := insertAll i.attributes ks })) t).attributes =
      if t = s then insertAll (ttFind tt s).attributes ks else (ttFind tt t).attributes := by
  rw [ttFind_ttUpdate]
  by_cases h : t = s
  · rw [if_pos h, if_pos h]
  · rw [if_neg h, if_neg h]

mutual
/-- Attribute sets accumulated by the counting pass: after traversing a node,
a key is recorded for a tag exactly when it was already recorded or some
element of the node with that local tag carries it. -/
theorem attrs_traverseNode : ∀ (n : XmlNode) (p : Option String) (tt : TagTree) (t a : String),
    a ∈ (ttFind (traverseNode n p tt) t).attributes ↔
      (a ∈ (ttFind tt t).attributes ∨ hasTagAttr n t a = true)
  | .comment tx tl, p, tt, t, a => by
    simp [traverseNode, hasTagAttr]
  | .procInst tg tx tl, p, tt, t, a => by
    simp [traverseNode, hasTagAttr]
  | .element tag attribs tx tl children, p, tt, t, a => by
    rw [traverseNode]
    rw [attrs_traverseForest children (localPart tag) _ t a]
    rw [attrs_bumpParent]
    rw [attrs_ttUpdate_insert]
    rw [hasTagAttr]
    by_cases ht : t = localPart tag
    · rw [if_pos ht]
      rw [mem_insertAll]
      rw [attrs_ttUpdate_pres tt (localPart tag)
        (fun i => { i with count := i.count + 1 }) (fun i => rfl) (localPart tag)]
      rw [ht]
      simp [Bool.or_eq_true, Bool.and_eq_true, decide_eq_true_iff]
      tauto
    · rw [if_neg ht]
      rw [attrs_ttUpdate_pres tt (localPart tag)
        (fun i => { i with count := i.count + 1 }) (fun i => rfl) t]
      have hne : ¬ localPart tag = t := fun he => ht he.symm
      simp [Bool.or_eq_true, Bool.and_eq_true, decide_eq_true_iff, hne]
/-- Forest version of `attrs_traverseNode`. -/
theorem attrs_traverseForest : ∀ (fr : XmlForest) (pt : String) (tt : TagTree) (t a : String),
    a ∈ (ttFind (traverseForest fr pt tt) t).attributes ↔
      (a ∈ (ttFind tt t).attributes ∨ forestHasTagAttr fr t a = true)
  | .nil, pt, tt, t, a => by
    simp [traverseForest, forestHasTagAttr]
  | .cons c cs, pt, tt, t, a => by
    rw [traverseForest]
    rw [attrs_traverseForest cs pt _ t a]
    rw [attrs_traverseNode c (some pt) tt t a]
    rw [forestHasTagAttr]
    simp only [Bool.or_eq_true]
    tauto
end

/-- C6 (amended): for every document and tag local name, the attribute set
the summarizer reports for that tag is the union over all occurrences of
elements with that local tag name of their raw attribute keys (the keys as
stored, Clark notation included, not reduced to local names). -/
theorem c6_attr_union_all_occurrences (doc : XmlDoc) (t a : String) :
    a ∈ (ttFind (tagTreeOf doc) t).attributes ↔ hasTagAttr doc.root t a = true := by
  rw [tagTreeOf, attrs_traverseNode doc.root none [] t a]
  simp [ttFind, defaultTagInfo]

/-- A tag never written reads as the defaultdict default. -/
theorem ttFind_default_of_notMem :
    ∀ (tt : TagTree) (t : String), t ∉ tt.map Prod.fst → ttFind tt t = defaultTagInfo := by
  intro tt
  induction tt with
  | nil => intro t _; rfl
  | cons kv rest ih =>
    intro t h
    obtain ⟨k, i⟩ := kv
    simp only [List.map_cons, List.mem_cons] at h
    push_neg at h
    rw [ttFind, if_neg (fun he => h.1 he.symm)]
    exact ih t h.2

/-- Fuel irrelevance of the rendering walk: any two fuel values exceeding the
number of tags not yet on the path produce the same output, because each
level of descent moves a tag of the tree onto the path.  This is the
termination argument for `format_summary`. -/
theorem formatSummaryF_stable (tt : TagTree) :
    ∀ (f1 f2 : Nat) (tag : String) (indent : Nat) (seen : List String),
      ((tt.map Prod.fst).filter (fun k => decide (k ∉ seen))).length < f1 →
      ((tt.map Prod.fst).filter (fun k => decide (k ∉ seen))).length < f2 →
      formatSummaryF tt f1 tag indent seen = formatSummaryF tt f2 tag indent seen := by
  intro f1
  induction f1 with
  | zero => intro f2 tag indent seen h1 h2; omega
  | succ n ih =>
    intro f2 tag indent seen h1 h2
    match f2 with
    | 0 => omega
    | m + 1 =>
      rw [formatSummaryF, formatSummaryF]
      by_cases hs : tag ∈ seen
      · rw [if_pos hs, if_pos hs]
      · rw [if_neg hs, if_neg hs]
        cases hc : sortStrings ((ttFind tt tag).children.map Prod.fst) with
        | nil => rfl
        | cons c cs =>
          congr 1
          have hXne : (ttFind tt tag).children ≠ [] := by
            intro h0
            rw [h0] at hc
            simp [sortStrings] at hc
          have htag : tag ∈ tt.map Prod.fst := by
            by_contra hn
            rw [ttFind_default_of_notMem tt tag hn] at hXne
            exact hXne rfl
          have himp : ∀ k : String, decide (k ∉ tag :: seen) = true →
              decide (k ∉ seen) = true := by
            intro k hk
            rw [decide_eq_true_iff] at hk ⊢
            intro hks
            exact hk (List.mem_cons_of_mem _ hks)
          have hdec :=
            filterLenLt (tt.map Prod.fst) (fun k => decide (k ∉ seen))
              (fun k => decide (k ∉ tag :: seen)) himp tag htag
              (by rw [decide_eq_true_iff]; exact hs)
              (by
                rw [decide_eq_false_iff_not]
                intro hcon
                exact hcon (List.mem_cons_self _ _))
          apply concatMapCongr
          intro d hd
          exact ih m d (indent + 1) (tag :: seen) (by omega) (by omega)

/-- C3: the rendering walk of the summarizer terminates on every document,
recursive schemas included, and a tag reappearing on its own rendering path
emits exactly its line followed by one recursion marker, with no descent into
its children.  First conjunct: the guard equation.  Second conjunct: fuel
irrelevance beyond the tag count, i.e. the walk needs only finitely many
steps, so the total function `formatSummary` is the walk's limit.  Third
conjunct: the self-containing document `<r><r/></r>` summarizes to a finite
string with exactly one marker. -/
theorem c3_summarizer_terminates_and_guards :
    (∀ (tt : TagTree) (tag : String) (indent : Nat) (seen : List String),
      tag ∈ seen →
      formatSummary tt tag indent seen =
        [summaryLine tag indent (ttFind tt tag).attributes, recMarker indent]) ∧
    (∀ (tt : TagTree) (fuel : Nat) (tag : String) (indent : Nat) (seen : List String),
      ((tt.map Prod.fst).filter (fun k => decide (k ∉ seen))).length < fuel →
      formatSummaryF tt fuel tag indent seen = formatSummary tt tag indent seen) ∧
    summarize_xml_structure docRec =
      "<r>\n  - <r>\n    - <r>\n      (recursive element)" := by
  refine ⟨?_, ?_, ?_⟩
  · intro tt tag indent seen h
    rw [formatSummary, formatSummaryF, if_pos h]
  · intro tt fuel tag indent seen h
    apply formatSummaryF_stable
    · exact h
    · have hle := List.length_filter_le (fun k => decide (k ∉ seen)) (tt.map Prod.fst)
      have hm : (tt.map Prod.fst).length = tt.length := List.length_map tt Prod.fst
      omega
  · decide

/-- C3 witness: the guard equation at a concrete path containing the tag, and
fuel irrelevance at a concrete fuel above the bound. -/
theorem c3_witness :
    formatSummary [] "t" 0 ["t"] =
      [summaryLine "t" 0 (ttFind [] "t").attributes, recMarker 0] ∧
    formatSummaryF [] 5 "t" 0 [] = formatSummary [] "t" 0 [] :=
  ⟨c3_summarizer_terminates_and_guards.1 [] "t" 0 ["t"] (by decide),
   c3_summarizer_terminates_and_guards.2.1 [] 5 "t" 0 [] (by decide)⟩
